import Mathlib

/-!
Shallow embedding of the pegnet grading core (`opr/grading.go` and the
versioned grader `baseGrader` file) together with proofs about the grading
pipeline: deduplication, difficulty verification, iterative narrowing,
winner-reference verification and grader construction.

Modelling conventions:
* Go byte slices are `List Nat` (each entry standing for one byte).
* Go `uint64` values are `Nat` (overflow never occurs in the modelled code:
  the only 64-bit values are produced by `binary.BigEndian.Uint64`, which is
  below `2^64` by construction, and are never arithmetically combined).
* Go `float64` is modelled by `ℚ`.  Every claim settled below is either
  independent of rounding (memberships, counts, list order under ties) or is
  evaluated at inputs where the float computation is exact (averages and
  grades of identical price vectors, which are exactly `0`).
* Go panics (index out of range, explicit `panic`) are modelled by `Option`
  (`none` = panic) or by an explicit outcome type for `NewGrader`.
* The hash primitive (`lxr30`, `ComputeDifficulty`) is an external opaque
  deterministic function; definitions are parametrised by
  `H : List Nat → List Nat`, its output assumed to be at least 8 bytes as the
  spec's hash-primitive interface guarantees.
* The asset registry (`common.AllAssets`) enters only through its length,
  passed as the parameter `numAssets`.
-/

set_option allowUnsafeReducibility true in
attribute [semireducible] Rat.add Rat.sub Rat.mul Rat.inv

namespace Pegnet

/-- The submission record: the fields of the Go `OraclePriceRecord` /
`GradingOPR` structs that the grading code reads or writes.
`selfReportedDifficulty` is the decoded value of the 8-byte big-endian
`SelfReportedDifficulty` field (`part_000` already stores it as `uint64`;
`grading.go` stores the 8 bytes and decodes them with
`binary.BigEndian.Uint64`).  `prices` is the value sequence returned by
`GetTokens`, `grade` is the mutable `Grade` field, `difficulty` the mutable
verified `Difficulty` field. -/
structure OraclePriceRecord where
  nonce : List Nat
  oprHash : List Nat
  selfReportedDifficulty : Nat
  difficulty : Nat
  prices : List ℚ
  grade : ℚ
  winPreviousOPR : List String
  entryHash : List Nat
deriving Repr, DecidableEq

abbrev Opr := OraclePriceRecord

/-- Identity key used by the duplicate filters:
`string(append(v.Nonce, v.OPRHash...))` — the byte concatenation of nonce
and record hash. -/
def idKey (r : Opr) : List Nat := r.nonce ++ r.oprHash

/-- `binary.BigEndian.Uint64`: the first 8 bytes interpreted as a big-endian
unsigned 64-bit integer. -/
def beUint64 (l : List Nat) : Nat :=
  (l.take 8).foldl (fun acc b => acc * 256 + b) 0

/-- The recomputed difficulty of a record:
`binary.BigEndian.Uint64(lx.Hash(append(o.OPRHash, o.Nonce...)))`
(`part_000`), identical to `opr.ComputeDifficulty(opr.Nonce)` used by
`GradeMinimum`. -/
def computeDifficulty (H : List Nat → List Nat) (r : Opr) : Nat :=
  beUint64 (H (r.oprHash ++ r.nonce))

/-- `opr.Difficulty = opr.ComputeDifficulty(opr.Nonce)`: store the recomputed
difficulty in the record's verified-difficulty field. -/
def setDiff (H : List Nat → List Nat) (r : Opr) : Opr :=
  { r with difficulty := computeDifficulty H r }

/-- The honesty test applied after the recomputation: the decoded
self-reported difficulty equals the recomputed difficulty
(`f != opr.Difficulty` / `diff != o.SelfReportedDifficulty` negated). -/
def honestB (r : Opr) : Bool := r.selfReportedDifficulty == r.difficulty

/-- A record with its mutable grade field cleared; two records agree on
`eraseGrade` exactly when they agree on every field the grading loop does
not overwrite. -/
def eraseGrade (r : Opr) : Opr := { r with grade := 0 }

/-! ### Stable sort (`sort.SliceStable`) -/

/-- Insert `a` in front of the first element `b` of `m` with `le a b`.
Auxiliary step of the stable insertion sort below. -/
def oins (le : α → α → Bool) (a : α) : List α → List α
  | [] => [a]
  | b :: m => if le a b then a :: b :: m else b :: oins le a m

/-- Stable insertion sort by the non-strict comparison `le`. -/
def isort (le : α → α → Bool) : List α → List α
  | [] => []
  | a :: l => oins le a (isort le l)

/-- Model of Go's `sort.SliceStable(x, less)`: the unique reordering that is
sorted with respect to the total preorder `fun a b => !less b a` and keeps
elements the comparator cannot distinguish in their original relative order.
A stable insertion sort by that preorder computes exactly this reordering. -/
def sortSliceStable (less : α → α → Bool) (l : List α) : List α :=
  isort (fun a b => !less b a) l

/-- The comparator `top50[i].Difficulty > top50[j].Difficulty` of the
per-iteration re-sort (descending verified difficulty). -/
def diffLess (a b : Opr) : Bool := decide (b.difficulty < a.difficulty)

/-- The comparator `top50[i].Grade < top50[j].Grade` of the per-iteration
re-sort (ascending grade). -/
def gradeLess (a b : Opr) : Bool := decide (a.grade < b.grade)

/-- The comparator of `sortByDifficulty` in the versioned grader, transcribed
exactly as written in the source:
`bg.oprs[i].SelfReportedDifficulty > bg.oprs[i].SelfReportedDifficulty` —
both sides read index `i`, so the comparison is of a value with itself. -/
def selfReportedLess (a _b : Opr) : Bool :=
  decide (a.selfReportedDifficulty < a.selfReportedDifficulty)

/-! ### Deduplicator -/

/-- The loop of `RemoveDuplicateSubmissions` / `filterDuplicates`: walk the
list keeping a set (`added`) of identity keys already seen, keeping a record
only when its key is new.  The Go `map[string]bool` is modelled by the list
of keys inserted so far. -/
def dedupLoop (seen : List (List Nat)) : List Opr → List Opr
  | [] => []
  | r :: rest =>
    if idKey r ∈ seen then dedupLoop seen rest
    else r :: dedupLoop (idKey r :: seen) rest

/-- `RemoveDuplicateSubmissions` (`grading.go`); `filterDuplicates` in the
versioned grader runs the identical loop over `bg.oprs`. -/
def RemoveDuplicateSubmissions (list : List Opr) : List Opr :=
  dedupLoop [] list

/-- Modelled from the spec: "returns the subsequence (relative order
preserved) retaining only the first occurrence of each identity key".
Reference definition used to state the deduplicator contract: keep the head
and drop every later record with the same identity key. -/
def firstOccurrences : List Opr → List Opr
  | [] => []
  | r :: rest =>
    r :: firstOccurrences (rest.filter (fun x => !(idKey x == idKey r)))
termination_by l => l.length
decreasing_by
  exact Nat.lt_succ_of_le (List.length_filter_le _ _)

/-! ### Difficulty verifier -/

/-- The verifier scan shared by `GradeMinimum` (limit 50) and
`sortByDifficulty` (parameter `limit`): walk the records in order,
recompute each examined record's difficulty, skip records whose
self-reported difficulty mismatches, and collect honest records in `topX`
until `limit` of them have been found. -/
def verifierScan (H : List Nat → List Nat) (limit : Nat) (topX : List Opr) :
    List Opr → List Opr
  | [] => topX
  | o :: rest =>
    let o' := setDiff H o
    if honestB o' then
      let t := topX ++ [o']
      if limit ≤ t.length then t else verifierScan H limit t rest
    else verifierScan H limit topX rest

/-- `sortByDifficulty` of the versioned grader: the (ineffective, see its
comparator) stable pre-sort by self-reported difficulty followed by the
verifier scan with the given limit. -/
def sortByDifficulty (H : List Nat → List Nat) (limit : Nat)
    (oprs : List Opr) : List Opr :=
  verifierScan H limit [] (sortSliceStable selfReportedLess oprs)

/-! ### Grading engine

The rational operations of the library are marked irreducible (see the
`attribute` command at the top of the file), which is reverted so that the
concrete grading runs below evaluate inside the kernel. -/

/-- Inner accumulation of `Avg` for one record: `avg[i] += token.value` for
non-negative values (`token.value >= 0`, written here as the negation of
`token.value < 0`), `avg[i] -= token.value` for negative ones.  Go indexes
`avg[i]` for every token index `i`; if the record has more tokens than the
registry-length array this is an index-out-of-range panic, modelled by
`none`. -/
def avgAdd : List ℚ → List ℚ → Option (List ℚ)
  | acc, [] => some acc
  | [], _ :: _ => none
  | a :: acc, t :: ts =>
    (avgAdd acc ts).map (fun rest => (if t < 0 then a - t else a + t) :: rest)

/-- The summation loop of `Avg` over all records. -/
def avgSumLoop : List ℚ → List Opr → Option (List ℚ)
  | acc, [] => some acc
  | acc, r :: rest =>
    match avgAdd acc r.prices with
    | some acc' => avgSumLoop acc' rest
    | none => none

/-- `Avg`: sum the (sign-stripped) prices per asset slot over all records of
the list, then divide each slot by the number of records.  (`ℚ` division by
zero yields `0` where Go's float division would yield NaN; the pipeline only
calls `Avg` on lists of at least 10 records.) -/
def Avg (numAssets : Nat) (list : List Opr) : Option (List ℚ) :=
  (avgSumLoop (List.replicate numAssets 0) list).map
    (fun sums => sums.map (fun s => s / (list.length : ℚ)))

/-- The accumulation loop of `CalculateGrade`: for each token index `i` the
code reads `avg[i]` (a panic when the record has more tokens than the
average array, modelled by `none`) and, when `avg[i] > 0`, adds
`d*d*d*d` for `d = (v - avg[i]) / avg[i]`. -/
def gradeSum : List ℚ → List ℚ → Option ℚ
  | _, [] => some 0
  | [], _ :: _ => none
  | a :: avg, v :: vs =>
    (gradeSum avg vs).map
      (fun g =>
        (if 0 < a then
          let d := (v - a) / a
          d * d * d * d
        else 0) + g)

/-- `CalculateGrade`: reset the record's grade to zero and accumulate the
quartic deviations from the average. -/
def CalculateGrade (avg : List ℚ) (opr : Opr) : Option Opr :=
  (gradeSum avg opr.prices).map (fun g => { opr with grade := g })

/-- Grade every record of the current surviving set with the same average
(the inner `for j := 0; j < i; j++ { CalculateGrade(avg, top50[j]) }`). -/
def gradeAll (avg : List ℚ) : List Opr → Option (List Opr)
  | [] => some []
  | r :: rest =>
    match CalculateGrade avg r, gradeAll avg rest with
    | some r', some rest' => some (r' :: rest')
    | _, _ => none

/-- One iteration of the narrowing loop at size `i`: average and grade the
current surviving prefix `top50[:i]`, then re-sort that prefix stably by
descending verified difficulty and then stably by ascending grade, leaving
the records beyond position `i` where they are. -/
def gradePass (numAssets i : Nat) (l : List Opr) : Option (List Opr) :=
  (Avg numAssets (l.take i)).bind (fun avg =>
    (gradeAll avg (l.take i)).map (fun s =>
      sortSliceStable gradeLess (sortSliceStable diffLess s) ++ l.drop i))

/-- The narrowing loop `for i := len(top50); i >= 10; i--`, written with the
loop counter as structural fuel. -/
def narrowFrom (numAssets : Nat) : Nat → List Opr → Option (List Opr)
  | 0, l => some l
  | i + 1, l =>
    if i + 1 < 10 then some l
    else (gradePass numAssets (i + 1) l).bind (narrowFrom numAssets i)

/-- `GradeMinimum`: deduplicate, bail out (returning the nil slice, an empty
result) when fewer than 10 unique records exist, collect up to 50 honest
records by scanning the original input list, then iteratively grade, re-sort
and narrow down to 10. -/
def GradeMinimum (H : List Nat → List Nat) (numAssets : Nat)
    (sortedList : List Opr) : Option (List Opr) :=
  let list := RemoveDuplicateSubmissions sortedList
  if list.length < 10 then some []
  else
    let top50 := verifierScan H 50 [] sortedList
    narrowFrom numAssets top50.length top50

/-! ### Winner-reference verifier -/

/-- Hex digit character of a value below 16 (lowercase, as
`hex.EncodeToString`). -/
def hexChar (n : Nat) : Char :=
  if n < 10 then Char.ofNat (48 + n) else Char.ofNat (87 + n)

/-- Two lowercase hex digits of one byte. -/
def hexByte (b : Nat) : List Char := [hexChar (b / 16 % 16), hexChar (b % 16)]

/-- `hex.EncodeToString` over a byte sequence. -/
def hexEncodeToString (l : List Nat) : String :=
  String.mk (l.foldr (fun b cs => hexByte b ++ cs) [])

/-- `hex.EncodeToString(winners[i].EntryHash[:8])`: the short hash exposed to
future records. -/
def shortHash (r : Opr) : String := hexEncodeToString (r.entryHash.take 8)

/-- The loop of `VerifyWinners` over `opr.WinPreviousOPR` with index `i`.
`winners` is `none` for a nil Go slice and `some ws` otherwise;
`winners[i]` on an index past the end is an index-out-of-range panic,
modelled by `none` in the result. -/
def verifyWinnersLoop (winners : Option (List Opr)) :
    List String → Nat → Option Bool
  | [], _ => some true
  | w :: rest, i =>
    if winners = none ∧ w ≠ "" then some false
    else if 0 < (winners.getD []).length then
      match (winners.getD []).get? i with
      | none => none
      | some win =>
        if w ≠ shortHash win then some false
        else verifyWinnersLoop winners rest (i + 1)
    else verifyWinnersLoop winners rest (i + 1)

/-- `VerifyWinners`: compare a record's claimed previous-winner short hashes
with the actual previous-height winners. -/
def VerifyWinners (opr : Opr) (winners : Option (List Opr)) : Option Bool :=
  verifyWinnersLoop winners opr.winPreviousOPR 0

/-! ### Versioned grader construction -/

/-- The state of a freshly constructed grader (`baseGrader` embedded in
`V1Block` / `V2Block`; the `version` field records which variant was
allocated). `new(...)` zero-initialises `oprs`, `winners` and `graded`. -/
structure BaseGrader where
  version : Nat
  oprs : List Opr
  winners : List Opr
  graded : Bool
  height : Int
  prevWinners : List String
deriving Repr, DecidableEq

/-- Outcome of `NewGrader`: a normal return of a grader, or a Go `panic`
with its message. -/
inductive GraderOutcome where
  | ok (g : BaseGrader)
  | crash (msg : String)
deriving Repr, DecidableEq

/-- `NewGrader`: construct the version-specific grader, fixing height and
previous winners; the `default` branch is `panic("invalid grader version")`. -/
def NewGrader (version : Int) (height : Int) (previousWinners : List String) :
    GraderOutcome :=
  if version = 1 then .ok ⟨1, [], [], false, height, previousWinners⟩
  else if version = 2 then .ok ⟨2, [], [], false, height, previousWinners⟩
  else .crash "invalid grader version"

/-! ### Derived notions and concrete inputs used by the theorems below -/

/-- The honest records of an input list, in encounter order, with their
verified difficulty recomputed: what the verifier scan would collect with no
limit. -/
def honestList (H : List Nat → List Nat) (l : List Opr) : List Opr :=
  (l.map (setDiff H)).filter honestB

/-- The winners are the first ten records of the graded list. -/
def winnersOf (o : Option (List Opr)) : Option (List Opr) :=
  o.map (List.take 10)

/-- Whether no two records of a list share an identity key. -/
def noDupIds (l : List Opr) : Bool := decide ((l.map idKey).Nodup)

/-- A concrete hash primitive for the concrete runs: every hash is eight zero
bytes, so a record is honest exactly when its self-reported difficulty is
`0`. -/
def H0 : List Nat → List Nat := fun _ => List.replicate 8 0

/-- A record with the given nonce, self-reported difficulty and price vector
(all other fields fixed). -/
def mkRec (nonce : List Nat) (sr : Nat) (prices : List ℚ) : Opr :=
  ⟨nonce, [7], sr, 0, prices, 0, [], []⟩

/-- Eleven honest records, pairwise distinct identities, identical prices
(so all grades and verified difficulties tie). -/
def elevenTied : List Opr :=
  [mkRec [0] 0 [1], mkRec [1] 0 [1], mkRec [2] 0 [1], mkRec [3] 0 [1],
   mkRec [4] 0 [1], mkRec [5] 0 [1], mkRec [6] 0 [1], mkRec [7] 0 [1],
   mkRec [8] 0 [1], mkRec [9] 0 [1], mkRec [10] 0 [1]]

/-- Ten unique records of which nine are honest: the last one self-reports
difficulty `5` while its recomputed difficulty under `H0` is `0`. -/
def nineHonest : List Opr :=
  [mkRec [0] 0 [1], mkRec [1] 0 [1], mkRec [2] 0 [1], mkRec [3] 0 [1],
   mkRec [4] 0 [1], mkRec [5] 0 [1], mkRec [6] 0 [1], mkRec [7] 0 [1],
   mkRec [8] 0 [1], mkRec [9] 5 [1]]

/-- Ten unique honest records. -/
def tenHonest : List Opr :=
  [mkRec [0] 0 [1], mkRec [1] 0 [1], mkRec [2] 0 [1], mkRec [3] 0 [1],
   mkRec [4] 0 [1], mkRec [5] 0 [1], mkRec [6] 0 [1], mkRec [7] 0 [1],
   mkRec [8] 0 [1], mkRec [9] 0 [1]]

/-- Ten unique honest records followed by an exact duplicate of the first. -/
def tenPlusDup : List Opr := tenHonest ++ [mkRec [0] 0 [1]]

/-- Ten unique honest records, the first of which reports two prices while
the asset registry has length one. -/
def badPrices : List Opr :=
  [mkRec [0] 0 [1, 1], mkRec [1] 0 [1], mkRec [2] 0 [1], mkRec [3] 0 [1],
   mkRec [4] 0 [1], mkRec [5] 0 [1], mkRec [6] 0 [1], mkRec [7] 0 [1],
   mkRec [8] 0 [1], mkRec [9] 0 [1]]

/-- The graded output for a concrete run (defaulting to `[]`, only ever used
where the run is proved to return normally). -/
def outOf (H : List Nat → List Nat) (numAssets : Nat) (l : List Opr) :
    List Opr :=
  (GradeMinimum H numAssets l).getD []

/-- The result of one narrowing iteration for a concrete run (defaulting to
`[]`, only ever used where the iteration is proved to return normally). -/
def gradePassOut (numAssets i : Nat) (l : List Opr) : List Opr :=
  (gradePass numAssets i l).getD []

/-- A previous-height winner whose entry hash is eight zero bytes, so its
short hash is the string of sixteen zero digits. -/
def wZero : Opr := ⟨[], [], 0, 0, [], 0, [], [0, 0, 0, 0, 0, 0, 0, 0]⟩

/-- A candidate record carrying the given previous-winner references. -/
def refRec (refs : List String) : Opr := ⟨[], [], 0, 0, [], 0, refs, []⟩

/-! ## Lemmas: the stable sort -/

theorem oins_perm (le : α → α → Bool) (a : α) (m : List α) :
    List.Perm (oins le a m) (a :: m) := by
  induction m with
  | nil => simp [oins]
  | cons b m ih =>
    rw [oins]
    cases hab : le a b with
    | true => simp
    | false =>
      simp only [Bool.false_eq_true, if_false]
      exact (ih.cons b).trans (List.Perm.swap a b m)

theorem isort_perm (le : α → α → Bool) (l : List α) :
    List.Perm (isort le l) l := by
  induction l with
  | nil => exact List.Perm.refl _
  | cons a l ih => exact (oins_perm le a (isort le l)).trans (ih.cons a)

theorem sortSliceStable_perm (less : α → α → Bool) (l : List α) :
    List.Perm (sortSliceStable less l) l :=
  isort_perm _ l

theorem pairwise_vacuous (R : α → α → Prop) (h : ∀ a b, R a b) (l : List α) :
    l.Pairwise R := by
  induction l with
  | nil => exact List.Pairwise.nil
  | cons a l ih => exact List.pairwise_cons.2 ⟨fun b _ => h a b, ih⟩

/-- Inserting an element that came before every element of an already
pairwise-consistent sorted list preserves sortedness together with the
tie-information `S`. -/
theorem oins_pairwise {le : α → α → Bool} {S : α → α → Prop}
    (htrans : ∀ a b c, le a b = true → le b c = true → le a c = true)
    (htot : ∀ a b, le a b = true ∨ le b a = true)
    {a : α} {m : List α}
    (hm : m.Pairwise (fun x y => le x y = true ∧ (le y x = true → S x y)))
    (hS : ∀ b ∈ m, le a b = true → le b a = true → S a b) :
    (oins le a m).Pairwise
      (fun x y => le x y = true ∧ (le y x = true → S x y)) := by
  induction m with
  | nil => simp [oins]
  | cons b m ih =>
    rw [oins]
    rcases List.pairwise_cons.1 hm with ⟨hb, hm'⟩
    cases hab : le a b with
    | true =>
      refine List.pairwise_cons.2 ⟨?_, hm⟩
      intro c hc
      rcases List.mem_cons.1 hc with rfl | hcm
      · exact ⟨hab, fun hba => hS c (List.mem_cons_self _ _) hab hba⟩
      · have hac := htrans a b c hab (hb c hcm).1
        exact ⟨hac, fun hca => hS c (List.mem_cons_of_mem _ hcm) hac hca⟩
    | false =>
      simp only [Bool.false_eq_true, if_false]
      refine List.pairwise_cons.2
        ⟨?_, ih hm' (fun c hc => hS c (List.mem_cons_of_mem _ hc))⟩
      intro c hc
      rcases List.mem_cons.1 ((oins_perm le a m).mem_iff.1 hc) with rfl | hcm
      · have hba : le b c = true := by
          rcases htot c b with h | h
          · exact absurd h (by simp [hab])
          · exact h
        exact ⟨hba, fun hab' => absurd hab' (by simp [hab])⟩
      · exact hb c hcm

/-- Stability of the insertion sort, packaged as a `Pairwise` transfer: if
every originally ordered pair of the input satisfies `S` whenever the
comparator ties it, then in the output every (now sorted) pair satisfies `S`
whenever tied. -/
theorem isort_pairwise {le : α → α → Bool} {S : α → α → Prop}
    (htrans : ∀ a b c, le a b = true → le b c = true → le a c = true)
    (htot : ∀ a b, le a b = true ∨ le b a = true)
    {l : List α}
    (hl : l.Pairwise (fun x y => le x y = true → le y x = true → S x y)) :
    (isort le l).Pairwise
      (fun x y => le x y = true ∧ (le y x = true → S x y)) := by
  induction l with
  | nil => simp [isort]
  | cons a l ih =>
    rw [isort]
    rcases List.pairwise_cons.1 hl with ⟨ha, hl'⟩
    exact oins_pairwise htrans htot (ih hl')
      (fun b hb => ha b ((isort_perm le l).mem_iff.1 hb))

theorem isort_sorted {le : α → α → Bool}
    (htrans : ∀ a b c, le a b = true → le b c = true → le a c = true)
    (htot : ∀ a b, le a b = true ∨ le b a = true) (l : List α) :
    (isort le l).Pairwise (fun x y => le x y = true) :=
  (isort_pairwise (S := fun _ _ => True) htrans htot
    (pairwise_vacuous _ (fun _ _ _ _ => trivial) l)).imp (fun h => h.1)

/-! ## Lemmas: the double re-sort of each narrowing iteration -/

theorem notDiffLess_iff (a b : Opr) :
    (!diffLess b a) = true ↔ b.difficulty ≤ a.difficulty := by
  simp [diffLess, Nat.not_lt]

theorem notGradeLess_iff (a b : Opr) :
    (!gradeLess b a) = true ↔ a.grade ≤ b.grade := by
  simp [gradeLess, not_lt]

/-- The order produced by the two stable sorts: strictly better grade, or
equal grade with at-least-as-large verified difficulty. -/
def rankedBelow (a b : Opr) : Prop :=
  a.grade < b.grade ∨ (a.grade = b.grade ∧ b.difficulty ≤ a.difficulty)

theorem doubleSort_pairwise (s : List Opr) :
    (sortSliceStable gradeLess (sortSliceStable diffLess s)).Pairwise
      rankedBelow := by
  have htransD : ∀ a b c : Opr, (!diffLess b a) = true → (!diffLess c b) = true →
      (!diffLess c a) = true := by
    intro a b c hab hbc
    rw [notDiffLess_iff] at *
    exact le_trans hbc hab
  have htotD : ∀ a b : Opr, (!diffLess b a) = true ∨ (!diffLess a b) = true := by
    intro a b
    rcases le_total b.difficulty a.difficulty with h | h
    · exact Or.inl ((notDiffLess_iff a b).2 h)
    · exact Or.inr ((notDiffLess_iff b a).2 h)
  have htransG : ∀ a b c : Opr, (!gradeLess b a) = true → (!gradeLess c b) = true →
      (!gradeLess c a) = true := by
    intro a b c hab hbc
    rw [notGradeLess_iff] at *
    exact le_trans hab hbc
  have htotG : ∀ a b : Opr, (!gradeLess b a) = true ∨ (!gradeLess a b) = true := by
    intro a b
    rcases le_total a.grade b.grade with h | h
    · exact Or.inl ((notGradeLess_iff a b).2 h)
    · exact Or.inr ((notGradeLess_iff b a).2 h)
  have h1 : (sortSliceStable diffLess s).Pairwise
      (fun x y => (!diffLess y x) = true) :=
    isort_sorted htransD htotD s
  have h2 := isort_pairwise (S := fun x y => y.difficulty ≤ x.difficulty)
    htransG htotG (h1.imp (fun {x y} h _ _ => (notDiffLess_iff x y).1 h))
  refine h2.imp (fun {x y} h => ?_)
  have hle : x.grade ≤ y.grade := (notGradeLess_iff x y).1 h.1
  rcases lt_or_eq_of_le hle with hlt | heq
  · exact Or.inl hlt
  · exact Or.inr ⟨heq, h.2 ((notGradeLess_iff y x).2 (le_of_eq heq.symm))⟩

/-! ## Lemmas: grading, averages and the narrowing loop -/

theorem CalculateGrade_some_eq {avg : List ℚ} {r r' : Opr}
    (h : CalculateGrade avg r = some r') : eraseGrade r' = eraseGrade r := by
  unfold CalculateGrade at h
  cases hg : gradeSum avg r.prices with
  | none => rw [hg] at h; cases h
  | some g =>
    rw [hg] at h
    cases h
    rfl

theorem gradeSum_isSome : ∀ (avg vs : List ℚ), vs.length ≤ avg.length →
    (gradeSum avg vs).isSome = true
  | _, [], _ => by simp [gradeSum]
  | [], _ :: _, h => absurd h (by simp)
  | a :: avg, v :: vs, h => by
    have := gradeSum_isSome avg vs (Nat.le_of_succ_le_succ h)
    obtain ⟨g, hg⟩ := Option.isSome_iff_exists.1 this
    simp [gradeSum, hg]

theorem CalculateGrade_isSome {avg : List ℚ} {r : Opr}
    (h : r.prices.length ≤ avg.length) :
    (CalculateGrade avg r).isSome = true := by
  obtain ⟨g, hg⟩ := Option.isSome_iff_exists.1 (gradeSum_isSome avg r.prices h)
  simp [CalculateGrade, hg]

theorem gradeAll_some_eq {avg : List ℚ} :
    ∀ {s s' : List Opr}, gradeAll avg s = some s' →
      s'.map eraseGrade = s.map eraseGrade := by
  intro s
  induction s with
  | nil => intro s' h; cases h; rfl
  | cons r rest ih =>
    intro s' h
    rw [gradeAll] at h
    cases hr : CalculateGrade avg r with
    | none => rw [hr] at h; cases h
    | some r' =>
      rw [hr] at h
      cases hrest : gradeAll avg rest with
      | none => rw [hrest] at h; cases h
      | some rest' =>
        rw [hrest] at h
        cases h
        simp only [List.map_cons, CalculateGrade_some_eq hr, ih hrest]

theorem gradeAll_isSome (avg : List ℚ) :
    ∀ (s : List Opr), (∀ r ∈ s, r.prices.length ≤ avg.length) →
      (gradeAll avg s).isSome = true := by
  intro s
  induction s with
  | nil => exact fun _ => rfl
  | cons r rest ih =>
    intro h
    obtain ⟨r', hr⟩ := Option.isSome_iff_exists.1
      (CalculateGrade_isSome (h r (List.mem_cons_self _ _)))
    obtain ⟨rest', hrest⟩ := Option.isSome_iff_exists.1
      (ih (fun x hx => h x (List.mem_cons_of_mem _ hx)))
    exact Option.isSome_iff_exists.2 ⟨r' :: rest', by simp [gradeAll, hr, hrest]⟩

theorem avgAdd_length : ∀ (acc ts : List ℚ) {acc' : List ℚ},
    avgAdd acc ts = some acc' → acc'.length = acc.length
  | [], [], _, h => by cases h; rfl
  | _ :: _, [], _, h => by cases h; rfl
  | [], _ :: _, _, h => by cases h
  | a :: acc, t :: ts, acc', h => by
    cases hacc : avgAdd acc ts with
    | none =>
      simp only [avgAdd, hacc, Option.map_none'] at h
      exact Option.noConfusion h
    | some rest =>
      simp only [avgAdd, hacc, Option.map_some'] at h
      cases h
      simp [avgAdd_length acc ts hacc]

theorem avgAdd_isSome : ∀ (acc ts : List ℚ), ts.length ≤ acc.length →
    (avgAdd acc ts).isSome = true
  | _, [], _ => by simp [avgAdd]
  | [], _ :: _, h => absurd h (by simp)
  | a :: acc, t :: ts, h => by
    obtain ⟨acc', hacc⟩ := Option.isSome_iff_exists.1
      (avgAdd_isSome acc ts (Nat.le_of_succ_le_succ h))
    simp [avgAdd, hacc]

theorem avgSumLoop_isSome :
    ∀ (l : List Opr) (acc : List ℚ),
      (∀ r ∈ l, r.prices.length ≤ acc.length) →
      (avgSumLoop acc l).isSome = true
  | [], _, _ => by simp [avgSumLoop]
  | r :: rest, acc, h => by
    obtain ⟨acc', hacc⟩ := Option.isSome_iff_exists.1
      (avgAdd_isSome acc r.prices (h r (List.mem_cons_self _ _)))
    have hlen := avgAdd_length acc r.prices hacc
    have := avgSumLoop_isSome rest acc'
      (fun x hx => hlen ▸ h x (List.mem_cons_of_mem _ hx))
    simpa [avgSumLoop, hacc] using this

theorem avgSumLoop_length : ∀ (l : List Opr) (acc : List ℚ) {sums : List ℚ},
    avgSumLoop acc l = some sums → sums.length = acc.length
  | [], _, _, h => by cases h; rfl
  | r :: rest, acc, sums, h => by
    cases hacc : avgAdd acc r.prices with
    | none =>
      simp only [avgSumLoop, hacc] at h
      exact Option.noConfusion h
    | some acc' =>
      simp only [avgSumLoop, hacc] at h
      rw [avgSumLoop_length rest acc' h, avgAdd_length acc r.prices hacc]

theorem Avg_isSome {numAssets : Nat} {l : List Opr}
    (h : ∀ r ∈ l, r.prices.length ≤ numAssets) :
    (Avg numAssets l).isSome = true := by
  obtain ⟨sums, hsums⟩ := Option.isSome_iff_exists.1
    (avgSumLoop_isSome l (List.replicate numAssets 0) (by simpa using h))
  simp [Avg, hsums]

theorem Avg_length {numAssets : Nat} {l : List Opr} {avg : List ℚ}
    (h : Avg numAssets l = some avg) : avg.length = numAssets := by
  unfold Avg at h
  cases hs : avgSumLoop (List.replicate numAssets 0) l with
  | none => rw [hs] at h; cases h
  | some sums =>
    rw [hs] at h
    cases h
    simpa using avgSumLoop_length l _ hs

theorem gradePass_eq_some {n i : Nat} {l out : List Opr} :
    gradePass n i l = some out ↔
      ∃ avg s, Avg n (l.take i) = some avg ∧ gradeAll avg (l.take i) = some s ∧
        out = sortSliceStable gradeLess (sortSliceStable diffLess s) ++ l.drop i := by
  constructor
  · intro h
    rcases Option.bind_eq_some.1 h with ⟨avg, hA, h2⟩
    rcases Option.map_eq_some'.1 h2 with ⟨s, hG, h3⟩
    exact ⟨avg, s, hA, hG, h3.symm⟩
  · rintro ⟨avg, s, hA, hG, rfl⟩
    simp [gradePass, hA, hG]

theorem gradePass_eraseGrade_perm {n i : Nat} {l out : List Opr}
    (h : gradePass n i l = some out) :
    List.Perm (out.map eraseGrade) (l.map eraseGrade) := by
  rcases gradePass_eq_some.1 h with ⟨avg, s, hA, hG, rfl⟩
  rw [List.map_append]
  have hsorts :
      List.Perm
        ((sortSliceStable gradeLess (sortSliceStable diffLess s)).map eraseGrade)
        (s.map eraseGrade) :=
    ((sortSliceStable_perm gradeLess _).trans (sortSliceStable_perm diffLess s)).map _
  have hP : List.Perm (s.map eraseGrade) ((l.take i).map eraseGrade) := by
    rw [gradeAll_some_eq hG]
  have h1 :
      List.Perm
        (((sortSliceStable gradeLess (sortSliceStable diffLess s)).map eraseGrade)
          ++ (l.drop i).map eraseGrade)
        ((l.take i).map eraseGrade ++ (l.drop i).map eraseGrade) :=
    (hsorts.trans hP).append_right _
  have h2 : (l.take i).map eraseGrade ++ (l.drop i).map eraseGrade
      = l.map eraseGrade := by
    rw [← List.map_append, List.take_append_drop]
  exact h2 ▸ h1

theorem narrowFrom_eraseGrade_perm {n : Nat} : ∀ {i : Nat} {l out : List Opr},
    narrowFrom n i l = some out →
    List.Perm (out.map eraseGrade) (l.map eraseGrade) := by
  intro i
  induction i with
  | zero => intro l out h; cases h; exact List.Perm.refl _
  | succ i ih =>
    intro l out h
    rw [narrowFrom] at h
    by_cases hlt : i + 1 < 10
    · rw [if_pos hlt] at h
      cases h
      exact List.Perm.refl _
    · rw [if_neg hlt] at h
      rcases Option.bind_eq_some.1 h with ⟨l', hp, hrec⟩
      exact (ih hrec).trans (gradePass_eraseGrade_perm hp)

theorem narrowFrom_length {n i : Nat} {l out : List Opr}
    (h : narrowFrom n i l = some out) : out.length = l.length := by
  have := (narrowFrom_eraseGrade_perm h).length_eq
  simpa using this

theorem mem_of_eraseGrade_perm {l₁ l₂ : List Opr}
    (h : List.Perm (l₁.map eraseGrade) (l₂.map eraseGrade)) {r : Opr}
    (hr : r ∈ l₁) : ∃ r₀ ∈ l₂, eraseGrade r = eraseGrade r₀ := by
  have hmem : eraseGrade r ∈ l₂.map eraseGrade :=
    h.subset (List.mem_map_of_mem _ hr)
  rcases List.mem_map.1 hmem with ⟨r₀, h0, heq⟩
  exact ⟨r₀, h0, heq.symm⟩

theorem gradePass_isSome {n i : Nat} {l : List Opr}
    (hwf : ∀ r ∈ l, r.prices.length ≤ n) :
    (gradePass n i l).isSome = true := by
  obtain ⟨avg, hA⟩ := Option.isSome_iff_exists.1
    (Avg_isSome (l := l.take i) (fun r hr => hwf r (List.take_subset _ _ hr)))
  have hAlen := Avg_length hA
  obtain ⟨s, hG⟩ := Option.isSome_iff_exists.1 (gradeAll_isSome avg (l.take i)
    (fun r hr => hAlen ▸ hwf r (List.take_subset _ _ hr)))
  simp [gradePass, hA, hG]

theorem narrowFrom_isSome {n : Nat} : ∀ (i : Nat) {l : List Opr},
    (∀ r ∈ l, r.prices.length ≤ n) →
    (narrowFrom n i l).isSome = true := by
  intro i
  induction i with
  | zero => exact fun _ => rfl
  | succ i ih =>
    intro l hwf
    rw [narrowFrom]
    by_cases hlt : i + 1 < 10
    · rw [if_pos hlt]; rfl
    · rw [if_neg hlt]
      obtain ⟨l', hp⟩ := Option.isSome_iff_exists.1
        (gradePass_isSome (i := i + 1) hwf)
      have hwf' : ∀ r ∈ l', r.prices.length ≤ n := by
        intro r hr
        obtain ⟨r₀, h0, heq⟩ :=
          mem_of_eraseGrade_perm (gradePass_eraseGrade_perm hp) hr
        have hpr : r.prices = r₀.prices := by
          have := congrArg OraclePriceRecord.prices heq
          simpa [eraseGrade] using this
        rw [hpr]
        exact hwf r₀ h0
      rw [hp]
      simpa using ih hwf'

/-! ## Lemmas: the verifier scan -/

theorem honestList_cons (H : List Nat → List Nat) (o : Opr) (l : List Opr) :
    honestList H (o :: l) =
      if honestB (setDiff H o) then setDiff H o :: honestList H l
      else honestList H l := by
  by_cases h : honestB (setDiff H o) <;>
    simp [honestList, List.filter_cons, h]

/-- The verifier scan collects exactly the first `limit - |acc|` honest
records (with verified difficulty recomputed), appended to the accumulator,
provided the accumulator is not already full. -/
theorem verifierScan_eq (H : List Nat → List Nat) (limit : Nat) :
    ∀ (l acc : List Opr), acc.length < limit →
      verifierScan H limit acc l =
        acc ++ (honestList H l).take (limit - acc.length) := by
  intro l
  induction l with
  | nil => intro acc _; simp [verifierScan, honestList]
  | cons o rest ih =>
    intro acc hacc
    rw [honestList_cons]
    by_cases h : honestB (setDiff H o)
    · rw [if_pos h]
      simp only [verifierScan, h, if_true]
      by_cases hl : limit ≤ (acc ++ [setDiff H o]).length
      · have h1 : limit - acc.length = 1 := by simp at hl; omega
        rw [if_pos hl, h1, List.take_succ_cons, List.take_zero]
      · have h2 : limit - acc.length = (limit - (acc.length + 1)) + 1 := by
          simp at hl; omega
        rw [if_neg hl, ih (acc ++ [setDiff H o]) (by simp at hl ⊢; omega)]
        simp only [List.length_append, List.length_cons, List.length_nil,
          List.append_assoc, List.cons_append, List.nil_append]
        rw [h2, List.take_succ_cons]
    · rw [if_neg h]
      simp only [verifierScan, h, Bool.false_eq_true, if_false]
      exact ih acc hacc

theorem verifierScan_nil_eq (H : List Nat → List Nat) {limit : Nat}
    (hpos : 0 < limit) (l : List Opr) :
    verifierScan H limit [] l = (honestList H l).take limit := by
  have := verifierScan_eq H limit l [] (by simpa using hpos)
  simpa using this

/-! ## Lemmas: the deduplicator -/

theorem dedupLoop_sublist : ∀ (l : List Opr) (seen : List (List Nat)),
    (dedupLoop seen l).Sublist l := by
  intro l
  induction l with
  | nil => intro seen; simp [dedupLoop]
  | cons r rest ih =>
    intro seen
    rw [dedupLoop]
    by_cases h : idKey r ∈ seen
    · rw [if_pos h]
      exact (ih seen).cons r
    · rw [if_neg h]
      exact (ih (idKey r :: seen)).cons₂ r

theorem mem_keys_dedupLoop : ∀ (l : List Opr) (seen : List (List Nat))
    (k : List Nat),
    k ∈ (dedupLoop seen l).map idKey ↔ (k ∈ l.map idKey ∧ k ∉ seen) := by
  intro l
  induction l with
  | nil => intro seen k; simp [dedupLoop]
  | cons r rest ih =>
    intro seen k
    rw [dedupLoop]
    by_cases h : idKey r ∈ seen
    · rw [if_pos h, ih]
      simp only [List.map_cons, List.mem_cons]
      constructor
      · rintro ⟨hk, hs⟩; exact ⟨Or.inr hk, hs⟩
      · rintro ⟨hk | hk, hs⟩
        · exact absurd (hk ▸ h) hs
        · exact ⟨hk, hs⟩
    · rw [if_neg h]
      simp only [List.map_cons, List.mem_cons, ih (idKey r :: seen) k]
      constructor
      · rintro (rfl | ⟨hk, hs⟩)
        · exact ⟨Or.inl rfl, h⟩
        · exact ⟨Or.inr hk, fun hx => hs (Or.inr hx)⟩
      · rintro ⟨rfl | hk, hs⟩
        · exact Or.inl rfl
        · by_cases hkr : k = idKey r
          · exact Or.inl hkr
          · exact Or.inr ⟨hk, by simp [hkr, hs]⟩

theorem dedupLoop_keys_nodup : ∀ (l : List Opr) (seen : List (List Nat)),
    ((dedupLoop seen l).map idKey).Nodup := by
  intro l
  induction l with
  | nil => intro seen; simp [dedupLoop]
  | cons r rest ih =>
    intro seen
    rw [dedupLoop]
    by_cases h : idKey r ∈ seen
    · rw [if_pos h]; exact ih seen
    · rw [if_neg h]
      simp only [List.map_cons, List.nodup_cons]
      refine ⟨fun hmem => ?_, ih _⟩
      have := (mem_keys_dedupLoop rest (idKey r :: seen) (idKey r)).1 hmem
      exact this.2 (List.mem_cons_self _ _)

theorem dedupLoop_eq_self : ∀ (l : List Opr) (seen : List (List Nat)),
    (l.map idKey).Nodup → (∀ r ∈ l, idKey r ∉ seen) → dedupLoop seen l = l := by
  intro l
  induction l with
  | nil => intro seen _ _; rfl
  | cons r rest ih =>
    intro seen hnd hs
    rw [dedupLoop, if_neg (hs r (List.mem_cons_self _ _))]
    congr 1
    obtain ⟨hhead, htail⟩ :
        (∀ x ∈ rest, ¬idKey x = idKey r) ∧ (rest.map idKey).Nodup := by
      simpa using hnd
    refine ih (idKey r :: seen) htail ?_
    intro x hx
    simp only [List.mem_cons]
    rintro (hxr | hxs)
    · exact hhead x hx hxr
    · exact hs x (List.mem_cons_of_mem _ hx) hxs

theorem dedupLoop_eq_firstOccurrences :
    ∀ (l : List Opr) (seen : List (List Nat)),
      dedupLoop seen l =
        firstOccurrences (l.filter (fun r => !decide (idKey r ∈ seen))) := by
  intro l
  induction l with
  | nil => intro seen; simp [dedupLoop, firstOccurrences]
  | cons r rest ih =>
    intro seen
    rw [dedupLoop, List.filter_cons]
    by_cases h : idKey r ∈ seen
    · rw [if_pos h]
      simp only [h, decide_True, Bool.not_true, Bool.false_eq_true, if_false]
      exact ih seen
    · rw [if_neg h]
      simp only [h, decide_False, Bool.not_false, if_true]
      rw [firstOccurrences, ih (idKey r :: seen), List.filter_filter]
      congr 1
      congr 1
      apply List.filter_congr
      intro x _
      by_cases hxr : idKey x = idKey r <;> by_cases hxs : idKey x ∈ seen <;>
        simp [hxr, hxs]

theorem RemoveDuplicateSubmissions_eq_firstOccurrences (l : List Opr) :
    RemoveDuplicateSubmissions l = firstOccurrences l := by
  rw [RemoveDuplicateSubmissions, dedupLoop_eq_firstOccurrences]
  congr 1
  simp

theorem RemoveDuplicateSubmissions_idem (l : List Opr) :
    RemoveDuplicateSubmissions (RemoveDuplicateSubmissions l) =
      RemoveDuplicateSubmissions l := by
  show dedupLoop [] (RemoveDuplicateSubmissions l) = RemoveDuplicateSubmissions l
  exact dedupLoop_eq_self _ [] (dedupLoop_keys_nodup l []) (by simp)

theorem dedup_length_perm {l₁ l₂ : List Opr} (h : List.Perm l₁ l₂) :
    (RemoveDuplicateSubmissions l₁).length =
      (RemoveDuplicateSubmissions l₂).length := by
  have n₁ : ((RemoveDuplicateSubmissions l₁).map idKey).Nodup :=
    dedupLoop_keys_nodup l₁ []
  have n₂ : ((RemoveDuplicateSubmissions l₂).map idKey).Nodup :=
    dedupLoop_keys_nodup l₂ []
  have hcard :
      ((RemoveDuplicateSubmissions l₁).map idKey).toFinset =
        ((RemoveDuplicateSubmissions l₂).map idKey).toFinset := by
    apply Finset.ext
    intro k
    simp only [List.mem_toFinset, RemoveDuplicateSubmissions,
      mem_keys_dedupLoop, List.not_mem_nil, not_false_iff, and_true]
    exact ⟨fun hk => (h.map idKey).subset hk,
      fun hk => (h.map idKey).symm.subset hk⟩
  have c₁ := List.toFinset_card_of_nodup n₁
  have c₂ := List.toFinset_card_of_nodup n₂
  have hlen₁ : ((RemoveDuplicateSubmissions l₁).map idKey).length =
      (RemoveDuplicateSubmissions l₁).length := List.length_map _ _
  have hlen₂ : ((RemoveDuplicateSubmissions l₂).map idKey).length =
      (RemoveDuplicateSubmissions l₂).length := List.length_map _ _
  rw [← hlen₁, ← hlen₂, ← c₁, ← c₂, hcard]

/-! ## Lemmas: structure of `GradeMinimum` -/

theorem GradeMinimum_lt10 {H : List Nat → List Nat} {n : Nat} {l : List Opr}
    (h : (RemoveDuplicateSubmissions l).length < 10) :
    GradeMinimum H n l = some [] := by
  simp [GradeMinimum, h]

theorem GradeMinimum_ge10 {H : List Nat → List Nat} {n : Nat} {l : List Opr}
    (h : ¬(RemoveDuplicateSubmissions l).length < 10) :
    GradeMinimum H n l =
      narrowFrom n (verifierScan H 50 [] l).length (verifierScan H 50 [] l) := by
  simp [GradeMinimum, h]

theorem honestList_mem {H : List Nat → List Nat} {l : List Opr} {r : Opr}
    (hr : r ∈ honestList H l) :
    r.difficulty = computeDifficulty H r ∧
      r.selfReportedDifficulty = r.difficulty := by
  rcases List.mem_filter.1 hr with ⟨hmem, hhon⟩
  rcases List.mem_map.1 hmem with ⟨s, _, rfl⟩
  exact ⟨rfl, by simpa [honestB] using hhon⟩

theorem honestList_mem_prices {H : List Nat → List Nat} {l : List Opr} {r : Opr}
    (hr : r ∈ honestList H l) : ∃ s ∈ l, r.prices = s.prices := by
  rcases List.mem_filter.1 hr with ⟨hmem, _⟩
  rcases List.mem_map.1 hmem with ⟨s, hs, rfl⟩
  exact ⟨s, hs, rfl⟩

theorem eraseGrade_fields {r r₀ : Opr} (h : eraseGrade r = eraseGrade r₀) :
    r.nonce = r₀.nonce ∧ r.oprHash = r₀.oprHash ∧
      r.selfReportedDifficulty = r₀.selfReportedDifficulty ∧
      r.difficulty = r₀.difficulty ∧ r.prices = r₀.prices := by
  refine ⟨?_, ?_, ?_, ?_, ?_⟩
  · have h' := congrArg (fun x : Opr => x.nonce) h
    exact h'
  · have h' := congrArg (fun x : Opr => x.oprHash) h
    exact h'
  · have h' := congrArg (fun x : Opr => x.selfReportedDifficulty) h
    exact h'
  · have h' := congrArg (fun x : Opr => x.difficulty) h
    exact h'
  · have h' := congrArg (fun x : Opr => x.prices) h
    exact h'

theorem idKey_eraseGrade (r : Opr) : idKey (eraseGrade r) = idKey r := rfl

theorem map_idKey_eq_of_eraseGrade (m : List Opr) :
    m.map idKey = (m.map eraseGrade).map idKey := by
  rw [List.map_map]
  exact List.map_congr_left (fun x _ => rfl)

theorem idKey_setDiff (H : List Nat → List Nat) (r : Opr) :
    idKey (setDiff H r) = idKey r := rfl

theorem honestList_keys_sublist (H : List Nat → List Nat) (l : List Opr) :
    ((honestList H l).map idKey).Sublist (l.map idKey) := by
  have h1 : ((honestList H l).map idKey).Sublist ((l.map (setDiff H)).map idKey) :=
    (List.filter_sublist _).map idKey
  have h2 : (l.map (setDiff H)).map idKey = l.map idKey := by
    rw [List.map_map]
    exact List.map_congr_left (fun x _ => rfl)
  exact h2 ▸ h1

/-- The comparator of the versioned grader's pre-sort never orders any pair
(it compares a value with itself), so the stable sort returns its input
unchanged. -/
theorem sortStep_id : ∀ l : List Opr, sortSliceStable selfReportedLess l = l := by
  intro l
  show isort (fun a b => !selfReportedLess b a) l = l
  induction l with
  | nil => rfl
  | cons a l ih =>
    rw [isort, ih]
    cases l with
    | nil => rfl
    | cons b m => simp [oins, selfReportedLess]

/-! ## Lemmas: the winner-reference verifier -/

theorem verifyWinnersLoop_none : ∀ (refs : List String) (i : Nat),
    verifyWinnersLoop none refs i = some (refs.all (fun w => w == "")) := by
  intro refs
  induction refs with
  | nil => intro i; rfl
  | cons w rest ih =>
    intro i
    rw [verifyWinnersLoop]
    by_cases hw : w = ""
    · subst hw
      simp [ih]
    · simp [hw]

theorem verifyWinnersLoop_some_nil : ∀ (refs : List String) (i : Nat),
    verifyWinnersLoop (some []) refs i = some true := by
  intro refs
  induction refs with
  | nil => intro i; rfl
  | cons w rest ih =>
    intro i
    rw [verifyWinnersLoop]
    simp [ih]

theorem verifyWinnersLoop_some_cons :
    ∀ (refs : List String) (w : Opr) (ws : List Opr) (i : Nat),
      verifyWinnersLoop (some (w :: ws)) refs i =
        (if (refs.zip ((w :: ws).drop i)).all
            (fun p => p.1 == shortHash p.2) = true then
          (if refs.length ≤ (w :: ws).length - i then some true else none)
        else some false) := by
  intro refs
  induction refs with
  | nil => intro w ws i; simp [verifyWinnersLoop]
  | cons x rest ih =>
    intro w ws i
    rw [verifyWinnersLoop]
    rw [if_neg (by simp)]
    rw [if_pos (by simp)]
    simp only [Option.getD_some]
    cases hget : (w :: ws).get? i with
    | none =>
      have hge : ws.length + 1 ≤ i := by
        simpa using List.get?_eq_none.1 hget
      have hdrop : (w :: ws).drop i = [] :=
        List.drop_eq_nil_of_le (by simp; omega)
      rw [hdrop]
      simp only [List.zip_nil_right, List.all_nil]
      rw [if_pos trivial, if_neg (by simp; omega)]
    | some win =>
      have hlt : i < ws.length + 1 := by
        by_contra hge
        rw [List.get?_eq_none.2 (by simp; omega)] at hget
        cases hget
      have hdrop : (w :: ws).drop i = win :: (w :: ws).drop (i + 1) := by
        rw [List.drop_eq_getElem_cons (by simpa using hlt)]
        obtain ⟨h', he⟩ := List.getElem?_eq_some_iff.1
          (by rw [← List.get?_eq_getElem?]; exact hget)
        rw [he]
      rw [hdrop]
      show (if x ≠ shortHash win then some false
        else verifyWinnersLoop (some (w :: ws)) rest (i + 1)) = _
      by_cases hx : x = shortHash win
      · subst hx
        rw [if_neg (by simp)]
        rw [ih w ws (i + 1)]
        simp only [List.zip_cons_cons, List.all_cons, beq_self_eq_true,
          Bool.true_and, List.length_cons]
        by_cases hnum : rest.length ≤ ws.length - i
        · have hnum' : rest.length + 1 ≤ ws.length + 1 - i := by omega
          simp [hnum, hnum']
        · have hnum' : ¬rest.length + 1 ≤ ws.length + 1 - i := by omega
          simp [hnum, hnum']
      · have hbeq : (x == shortHash win) = false := by
          simpa using hx
        rw [if_pos hx]
        simp [hbeq]

/-! ## Claim theorems -/

/-- C10 (confirmed): `RemoveDuplicateSubmissions` returns the subsequence of
its input retaining only the first occurrence of each identity key
(`firstOccurrences` transcribes the spec's wording), preserves relative
order (the output is a sublist of the input), and is idempotent. -/
theorem removeDuplicateSubmissions_contract (l : List Opr) :
    RemoveDuplicateSubmissions l = firstOccurrences l ∧
    (RemoveDuplicateSubmissions l).Sublist l ∧
    RemoveDuplicateSubmissions (RemoveDuplicateSubmissions l) =
      RemoveDuplicateSubmissions l :=
  ⟨RemoveDuplicateSubmissions_eq_firstOccurrences l, dedupLoop_sublist l [],
    RemoveDuplicateSubmissions_idem l⟩

/-- C6 (code_bug): the comparator of `sortByDifficulty` reads
`bg.oprs[i].SelfReportedDifficulty` on both sides of the `>`, so the
pre-verification "sort" leaves every record list unchanged; on two records
with ascending self-reported difficulties the result is not in descending
order as claimed and intended. -/
theorem sortByDifficulty_does_not_sort :
    (∀ l : List Opr, sortSliceStable selfReportedLess l = l) ∧
    sortSliceStable selfReportedLess [mkRec [0] 1 [1], mkRec [1] 2 [1]] =
      [mkRec [0] 1 [1], mkRec [1] 2 [1]] ∧
    (mkRec [0] 1 [1]).selfReportedDifficulty <
      (mkRec [1] 2 [1]).selfReportedDifficulty :=
  ⟨sortStep_id, sortStep_id _, by decide⟩

/-- C8 (corrected): counterexample — constructing a grader with the
unrecognized version 3 is a runtime panic ("invalid grader version"), not an
explicit failure result. -/
theorem newGrader_unknown_version_panics :
    NewGrader 3 0 [] = GraderOutcome.crash "invalid grader version" := by
  decide

/-- C8 (corrected, amended): for the recognized versions 1 and 2 `NewGrader`
returns a grader carrying exactly the given height and previous-winners
list (with zero-initialised record state); for every other version it
panics with the message "invalid grader version" rather than returning an
error value. -/
theorem newGrader_behavior (v ht : Int) (p : List String) :
    NewGrader 1 ht p = GraderOutcome.ok ⟨1, [], [], false, ht, p⟩ ∧
    NewGrader 2 ht p = GraderOutcome.ok ⟨2, [], [], false, ht, p⟩ ∧
    (v ≠ 1 → v ≠ 2 →
      NewGrader v ht p = GraderOutcome.crash "invalid grader version") := by
  refine ⟨by simp [NewGrader], by simp [NewGrader], ?_⟩
  intro h1 h2
  simp [NewGrader, h1, h2]

theorem newGrader_behavior_witness :
    (3 : Int) ≠ 1 ∧ (3 : Int) ≠ 2 ∧
    NewGrader 1 5 ["aa"] = GraderOutcome.ok ⟨1, [], [], false, 5, ["aa"]⟩ ∧
    NewGrader 3 5 ["aa"] = GraderOutcome.crash "invalid grader version" :=
  ⟨by decide, by decide, (newGrader_behavior 3 5 ["aa"]).1,
    (newGrader_behavior 3 5 ["aa"]).2.2 (by decide) (by decide)⟩

/-- C9 (corrected): counterexample — a record whose price vector (length 2)
exceeds the asset registry (length 1) is not excluded from grading: `Avg`
hits an out-of-range index (modelled by `none`), and the full grading run
aborts instead of grading the remaining records. -/
theorem malformed_prices_counterexample :
    Avg 1 [mkRec [0] 0 [1, 1]] = none ∧ GradeMinimum H0 1 badPrices = none := by
  decide

/-- C9 (corrected, amended): when every record's price vector is no longer
than the asset registry (in particular when it matches the registry length,
as the record model guarantees), `Avg` returns a registry-length average
array and `CalculateGrade` returns a grade for every record, so no indexing
outside the registry-length array occurs; the engine itself performs no
exclusion of mismatched records. -/
theorem avg_grade_in_bounds (numAssets : Nat) (l : List Opr)
    (hwf : ∀ r ∈ l, r.prices.length ≤ numAssets) :
    ∃ avg, Avg numAssets l = some avg ∧ avg.length = numAssets ∧
      ∀ r ∈ l, (CalculateGrade avg r).isSome = true := by
  obtain ⟨avg, hA⟩ := Option.isSome_iff_exists.1 (Avg_isSome hwf)
  refine ⟨avg, hA, Avg_length hA, fun r hr => ?_⟩
  exact CalculateGrade_isSome ((Avg_length hA).symm ▸ hwf r hr)

theorem avg_grade_in_bounds_witness :
    (∀ r ∈ tenHonest, r.prices.length ≤ 1) ∧
    (∃ avg, Avg 1 tenHonest = some avg ∧ avg.length = 1 ∧
      ∀ r ∈ tenHonest, (CalculateGrade avg r).isSome = true) :=
  ⟨by decide, avg_grade_in_bounds 1 tenHonest (by decide)⟩

/-- C4 (confirmed): the difficulty verifier recomputes each examined
record's verified difficulty as the first 8 bytes of
`HashPrimitive(record_hash ++ nonce)` read as a big-endian unsigned 64-bit
integer, and returns exactly the first `limit` records whose recomputed
difficulty equals their self-reported one, in encounter order (the
`take limit` of the honest sublist), stopping once `limit` honest records
have been collected. -/
theorem difficulty_verifier_contract (H : List Nat → List Nat) (limit : Nat)
    (l : List Opr) (hpos : 0 < limit) :
    verifierScan H limit [] l = (honestList H l).take limit ∧
    ∀ r ∈ verifierScan H limit [] l,
      r.difficulty = beUint64 (H (r.oprHash ++ r.nonce)) ∧
      r.selfReportedDifficulty = r.difficulty := by
  refine ⟨verifierScan_nil_eq H hpos l, ?_⟩
  intro r hr
  rw [verifierScan_nil_eq H hpos l] at hr
  obtain ⟨hd, hsr⟩ := honestList_mem (List.take_subset _ _ hr)
  exact ⟨hd, hsr⟩

theorem difficulty_verifier_contract_witness :
    0 < 2 ∧
    (verifierScan H0 2 [] nineHonest = (honestList H0 nineHonest).take 2 ∧
      ∀ r ∈ verifierScan H0 2 [] nineHonest,
        r.difficulty = beUint64 (H0 (r.oprHash ++ r.nonce)) ∧
        r.selfReportedDifficulty = r.difficulty) :=
  ⟨by decide, difficulty_verifier_contract H0 2 nineHonest (by decide)⟩

/-- C5 (confirmed): in every narrowing iteration, the surviving prefix of
the output — produced by a stable sort by verified difficulty descending
followed by a stable sort by grade ascending — is ordered with primary key
grade ascending and ties broken by verified difficulty descending. -/
theorem narrowing_resort_order (n i : Nat) (l out : List Opr)
    (h : gradePass n i l = some out) :
    (out.take i).Pairwise rankedBelow := by
  rcases gradePass_eq_some.1 h with ⟨avg, s, hA, hG, rfl⟩
  have hlen_s : s.length = (l.take i).length := by
    have h' := congrArg List.length (gradeAll_some_eq hG)
    simpa using h'
  have hslen :
      (sortSliceStable gradeLess (sortSliceStable diffLess s)).length
        = s.length :=
    ((sortSliceStable_perm gradeLess _).trans
      (sortSliceStable_perm diffLess s)).length_eq
  by_cases hil : i ≤ l.length
  · have hexact :
        (sortSliceStable gradeLess (sortSliceStable diffLess s)).length = i := by
      rw [hslen, hlen_s, List.length_take]
      omega
    rw [List.take_left' hexact]
    exact doubleSort_pairwise s
  · have hdrop : l.drop i = [] := List.drop_eq_nil_of_le (by omega)
    rw [hdrop, List.append_nil]
    exact (doubleSort_pairwise s).sublist (List.take_sublist _ _)

theorem narrowing_resort_order_witness :
    gradePass 1 3 tenHonest = some (gradePassOut 1 3 tenHonest) ∧
    ((gradePassOut 1 3 tenHonest).take 3).Pairwise rankedBelow :=
  ⟨by decide,
    narrowing_resort_order 1 3 tenHonest (gradePassOut 1 3 tenHonest) (by decide)⟩

/-- C2 (corrected): counterexample — ten unique records, only nine of them
honest: the claim requires an empty winners result, but `GradeMinimum`
returns the nine honest records. -/
theorem quorum_floor_counterexample :
    (RemoveDuplicateSubmissions nineHonest).length = 10 ∧
    (honestList H0 nineHonest).length = 9 ∧
    (GradeMinimum H0 1 nineHonest).map List.length = some 9 := by
  decide

/-- C2 (corrected, amended): the ten-record floor is checked on the
deduplicated record count before honesty is verified: fewer than ten unique
records yield the empty result, and at least ten unique records of which
exactly ten are honest yield exactly ten graded records. -/
theorem quorum_floor (H : List Nat → List Nat) (n : Nat) (l : List Opr)
    (hwf : ∀ r ∈ l, r.prices.length ≤ n) :
    ((RemoveDuplicateSubmissions l).length < 10 →
      GradeMinimum H n l = some []) ∧
    (¬(RemoveDuplicateSubmissions l).length < 10 →
      (honestList H l).length = 10 →
      ∃ out, GradeMinimum H n l = some out ∧ out.length = 10) := by
  refine ⟨fun h => GradeMinimum_lt10 h, ?_⟩
  intro h10 hcount
  rw [GradeMinimum_ge10 h10]
  have htop : verifierScan H 50 [] l = honestList H l := by
    rw [verifierScan_nil_eq H (by norm_num) l]
    exact List.take_of_length_le (by omega)
  have hwft : ∀ r ∈ verifierScan H 50 [] l, r.prices.length ≤ n := by
    intro r hr
    rw [htop] at hr
    obtain ⟨s, hs, hps⟩ := honestList_mem_prices hr
    rw [hps]
    exact hwf s hs
  obtain ⟨out, hout⟩ := Option.isSome_iff_exists.1 (narrowFrom_isSome _ hwft)
  refine ⟨out, hout, ?_⟩
  rw [narrowFrom_length hout, htop, hcount]

theorem quorum_floor_witness :
    (∀ r ∈ tenHonest, r.prices.length ≤ 1) ∧
    ¬(RemoveDuplicateSubmissions tenHonest).length < 10 ∧
    (honestList H0 tenHonest).length = 10 ∧
    (∃ out, GradeMinimum H0 1 tenHonest = some out ∧ out.length = 10) :=
  ⟨by decide, by decide, by decide,
    (quorum_floor H0 1 tenHonest (by decide)).2 (by decide) (by decide)⟩

/-- C3 (corrected): counterexample — an exact duplicate of an honest record
survives into the graded output because the honest scan runs over the raw
input list, so two output records share the identity key. -/
theorem graded_output_dup_counterexample :
    (RemoveDuplicateSubmissions tenPlusDup).length = 10 ∧
    (GradeMinimum H0 1 tenPlusDup).map noDupIds = some false := by
  decide

/-- C3 (corrected, amended): every record in `GradeMinimum`'s output is
honest — its recomputed difficulty equals both its stored verified
difficulty and its self-reported difficulty — and, provided the raw input
contains no two entries sharing an identity key, neither does the output. -/
theorem graded_output_wellformed (H : List Nat → List Nat) (n : Nat)
    (l out : List Opr) (h : GradeMinimum H n l = some out) :
    (∀ r ∈ out, r.difficulty = computeDifficulty H r ∧
      r.selfReportedDifficulty = r.difficulty) ∧
    ((l.map idKey).Nodup → (out.map idKey).Nodup) := by
  by_cases hlen : (RemoveDuplicateSubmissions l).length < 10
  · rw [GradeMinimum_lt10 hlen] at h
    cases h
    exact ⟨fun r hr => absurd hr (List.not_mem_nil r), fun _ => List.nodup_nil⟩
  · rw [GradeMinimum_ge10 hlen] at h
    have hperm := narrowFrom_eraseGrade_perm h
    have htop : verifierScan H 50 [] l = (honestList H l).take 50 :=
      verifierScan_nil_eq H (by norm_num) l
    constructor
    · intro r hr
      obtain ⟨r₀, h0, heq⟩ := mem_of_eraseGrade_perm hperm hr
      rw [htop] at h0
      obtain ⟨hd, hsr⟩ := honestList_mem (List.take_subset _ _ h0)
      obtain ⟨hnonce, hhash, hself, hdiff, _⟩ := eraseGrade_fields heq
      constructor
      · rw [hdiff, hd]
        unfold computeDifficulty
        rw [hnonce, hhash]
      · rw [hself, hdiff, hsr]
    · intro hnd
      have hkeys :
          List.Perm (out.map idKey) ((verifierScan H 50 [] l).map idKey) := by
        rw [map_idKey_eq_of_eraseGrade out,
          map_idKey_eq_of_eraseGrade (verifierScan H 50 [] l)]
        exact hperm.map idKey
      have hsub :
          ((verifierScan H 50 [] l).map idKey).Sublist (l.map idKey) := by
        rw [htop]
        exact ((List.take_sublist _ _).map idKey).trans
          (honestList_keys_sublist H l)
      exact hkeys.nodup_iff.2 (hnd.sublist hsub)

theorem graded_output_wellformed_witness :
    GradeMinimum H0 1 tenHonest = some (outOf H0 1 tenHonest) ∧
    ((∀ r ∈ outOf H0 1 tenHonest, r.difficulty = computeDifficulty H0 r ∧
        r.selfReportedDifficulty = r.difficulty) ∧
      ((tenHonest.map idKey).Nodup → ((outOf H0 1 tenHonest).map idKey).Nodup)) :=
  ⟨by decide, graded_output_wellformed H0 1 tenHonest _ (by decide)⟩

/-- C7 (corrected): counterexample — an empty reference list passes against
three actual winners (no arity check exists, so a length mismatch does not
return false), and a reference list longer than a nonempty winners list
crashes with an index out of range instead of returning false. -/
theorem verifyWinners_counterexample :
    VerifyWinners (refRec []) (some [wZero, wZero, wZero]) = some true ∧
    VerifyWinners (refRec ["0000000000000000", "0000000000000000"])
      (some [wZero]) = none := by
  decide

/-- C7 (corrected, amended): the full behaviour of `VerifyWinners`.  With a
nil previous-winners slice it returns true iff every reference is the empty
string.  With an empty non-nil slice it returns true whatever the
references.  With a nonempty winners list it compares the references
positionally against the hex-encoded first-8-byte short hashes: a mismatch
within range returns false; if every in-range reference matches it returns
true when the reference list is no longer than the winners list and
otherwise crashes (index out of range, modelled `none`); surplus winners
beyond the reference list are never checked. -/
theorem verifyWinners_characterization (opr : Opr) :
    VerifyWinners opr none =
      some (opr.winPreviousOPR.all (fun w => w == "")) ∧
    VerifyWinners opr (some []) = some true ∧
    ∀ (w : Opr) (ws : List Opr),
      VerifyWinners opr (some (w :: ws)) =
        (if (opr.winPreviousOPR.zip (w :: ws)).all
            (fun p => p.1 == shortHash p.2) = true then
          (if opr.winPreviousOPR.length ≤ (w :: ws).length then some true
           else none)
        else some false) := by
  refine ⟨verifyWinnersLoop_none _ 0, verifyWinnersLoop_some_nil _ 0, ?_⟩
  intro w ws
  have h := verifyWinnersLoop_some_cons opr.winPreviousOPR w ws 0
  simpa using h

/-- C1 (corrected): counterexample — a rotation of eleven records that all
tie in grade and verified difficulty is a permutation of the original
input, yet the winners (the first ten graded records) differ between the
two runs. -/
theorem permutation_invariance_counterexample :
    List.Perm (elevenTied.rotate 1) elevenTied ∧
    winnersOf (GradeMinimum H0 1 (elevenTied.rotate 1)) ≠
      winnersOf (GradeMinimum H0 1 elevenTied) := by
  decide

/-- C1 (corrected, amended): permutation invariance holds only up to the
recomputed grades and the output order: when the honest records fit the
50-record quorum, two runs on permuted inputs return outputs that are
permutations of each other once the grade field is disregarded; the winners
list and the grades themselves may differ under ties. -/
theorem permutation_invariance_up_to_grades (H : List Nat → List Nat)
    (n : Nat) (l₁ l₂ r₁ r₂ : List Opr) (hperm : List.Perm l₁ l₂)
    (hcount : (honestList H l₁).length ≤ 50)
    (h₁ : GradeMinimum H n l₁ = some r₁)
    (h₂ : GradeMinimum H n l₂ = some r₂) :
    List.Perm (r₁.map eraseGrade) (r₂.map eraseGrade) := by
  have hdlen := dedup_length_perm hperm
  by_cases hlt : (RemoveDuplicateSubmissions l₁).length < 10
  · rw [GradeMinimum_lt10 hlt] at h₁
    rw [GradeMinimum_lt10 (by omega)] at h₂
    cases h₁
    cases h₂
    exact List.Perm.refl _
  · rw [GradeMinimum_ge10 hlt] at h₁
    rw [GradeMinimum_ge10 (by omega)] at h₂
    have hp₁ := narrowFrom_eraseGrade_perm h₁
    have hp₂ := narrowFrom_eraseGrade_perm h₂
    have hhon : List.Perm (honestList H l₁) (honestList H l₂) :=
      (hperm.map (setDiff H)).filter honestB
    have ht₁ : verifierScan H 50 [] l₁ = honestList H l₁ := by
      rw [verifierScan_nil_eq H (by norm_num) l₁]
      exact List.take_of_length_le hcount
    have ht₂ : verifierScan H 50 [] l₂ = honestList H l₂ := by
      rw [verifierScan_nil_eq H (by norm_num) l₂]
      exact List.take_of_length_le (hhon.length_eq ▸ hcount)
    rw [ht₁] at hp₁
    rw [ht₂] at hp₂
    exact hp₁.trans ((hhon.map eraseGrade).trans hp₂.symm)

theorem permutation_invariance_up_to_grades_witness :
    List.Perm elevenTied (elevenTied.rotate 1) ∧
    (honestList H0 elevenTied).length ≤ 50 ∧
    GradeMinimum H0 1 elevenTied = some (outOf H0 1 elevenTied) ∧
    GradeMinimum H0 1 (elevenTied.rotate 1) =
      some (outOf H0 1 (elevenTied.rotate 1)) ∧
    List.Perm ((outOf H0 1 elevenTied).map eraseGrade)
      ((outOf H0 1 (elevenTied.rotate 1)).map eraseGrade) :=
  ⟨by decide, by decide, by decide, by decide,
    permutation_invariance_up_to_grades H0 1 elevenTied (elevenTied.rotate 1)
      (outOf H0 1 elevenTied) (outOf H0 1 (elevenTied.rotate 1)) (by decide)
      (by decide) (by decide) (by decide)⟩

end Pegnet
